import Mathlib

/-!
Verification development for the PRM reverse-reachable (RR) influence
maximization engine (header `rr_infl_origin.h`).  The repository ships only
the class declarations; every function body is modelled from the
natural-language specification, as indicated in each doc comment.
-/

namespace PRM

/-- An RR sample: the list of member node ids (the nodes that can reach the
root under one stochastic realization of the diffusion process). -/
abbrev RRVec := List Nat

/-! ## Hit Index (inverted index from node id to RR-sample indices) -/

/-- Modelled from the spec: generic index scan underlying
`RRInflBase::_RebuildRRIndices` (body not in the header).  `idxWhere p l i`
returns the positions (offset by `i`) of the elements of `l` satisfying `p`,
in increasing order. -/
def idxWhere (p : α → Bool) : List α → Nat → List Nat
  | [], _ => []
  | a :: rest, i => if p a then i :: idxWhere p rest (i + 1) else idxWhere p rest (i + 1)

theorem length_idxWhere (p : α → Bool) (l : List α) (i : Nat) :
    (idxWhere p l i).length = l.countP p := by
  induction l generalizing i with
  | nil => simp [idxWhere]
  | cons a rest ih =>
    by_cases h : p a
    · simp [idxWhere, h, ih, List.countP_cons]
    · simp [idxWhere, h, ih, List.countP_cons]

theorem mem_idxWhere_ge (p : α → Bool) (l : List α) (i j : Nat)
    (hj : j ∈ idxWhere p l i) : i ≤ j := by
  induction l generalizing i with
  | nil => simp [idxWhere] at hj
  | cons a rest ih =>
    by_cases h : p a
    · simp only [idxWhere, h, if_true, List.mem_cons] at hj
      rcases hj with rfl | hj
      · exact Nat.le_refl _
      · exact Nat.le_of_succ_le (ih (i + 1) hj)
    · simp only [idxWhere, h, if_false] at hj
      exact Nat.le_of_succ_le (ih (i + 1) hj)

theorem mem_idxWhere_lt (p : α → Bool) (l : List α) (i j : Nat)
    (hj : j ∈ idxWhere p l i) : j < i + l.length := by
  induction l generalizing i with
  | nil => simp [idxWhere] at hj
  | cons a rest ih =>
    by_cases h : p a
    · simp only [idxWhere, h, if_true, List.mem_cons] at hj
      rcases hj with rfl | hj
      · simp
      · have := ih (i + 1) hj
        simp only [List.length_cons]
        omega
    · simp only [idxWhere, h, if_false] at hj
      have := ih (i + 1) hj
      simp only [List.length_cons]
      omega

theorem nodup_idxWhere (p : α → Bool) (l : List α) (i : Nat) :
    (idxWhere p l i).Nodup := by
  induction l generalizing i with
  | nil => simp [idxWhere]
  | cons a rest ih =>
    by_cases h : p a
    · simp only [idxWhere, h, if_true]
      refine List.nodup_cons.mpr ⟨fun hmem => ?_, ih (i + 1)⟩
      have := mem_idxWhere_ge p rest (i + 1) i hmem
      omega
    · simp only [idxWhere, h, if_false]
      exact ih (i + 1)

theorem mem_idxWhere_getD (p : α → Bool) (l : List α) (i j : Nat) (d : α)
    (hj : j ∈ idxWhere p l i) : p (l.getD (j - i) d) = true := by
  induction l generalizing i with
  | nil => simp [idxWhere] at hj
  | cons a rest ih =>
    by_cases h : p a
    · simp only [idxWhere, h, if_true, List.mem_cons] at hj
      rcases hj with rfl | hj
      · simpa using h
      · have hge := mem_idxWhere_ge p rest (i + 1) j hj
        have hsub : j - i = (j - (i + 1)) + 1 := by omega
        rw [hsub]
        simpa using ih (i + 1) hj
    · simp only [idxWhere, h, if_false] at hj
      have hge := mem_idxWhere_ge p rest (i + 1) j hj
      have hsub : j - i = (j - (i + 1)) + 1 := by omega
      rw [hsub]
      simpa using ih (i + 1) hj

/-- Modelled from the spec: the per-node list of RR-sample indices kept in
`RRInflBase::degreeRRIndices[v]` after `_RebuildRRIndices` — the list of
Store positions whose member set contains `v`. -/
def hitIndices (v : Nat) (table : List RRVec) : List Nat :=
  idxWhere (fun s => s.contains v) table 0

/-- Modelled from the spec: the per-node degree kept in
`RRInflBase::degrees[v]` — the number of Store entries whose member set
contains `v`. -/
def nodeDegree (v : Nat) (table : List RRVec) : Nat :=
  table.countP (fun s => s.contains v)

/-- Modelled from the spec: the `degrees` vector produced by
`RRInflBase::_RebuildRRIndices` (one entry per node id `0 ≤ v < n`). -/
def rebuildDegrees (n : Nat) (table : List RRVec) : List Nat :=
  (List.range n).map (fun v => nodeDegree v table)

/-- Modelled from the spec: the `degreeRRIndices` vector produced by
`RRInflBase::_RebuildRRIndices` (one index list per node id `0 ≤ v < n`). -/
def rebuildDegreeRRIndices (n : Nat) (table : List RRVec) : List (List Nat) :=
  (List.range n).map (fun v => hitIndices v table)

theorem getD_map_range (f : Nat → α) (n v : Nat) (hv : v < n) (d : α) :
    ((List.range n).map f).getD v d = f v := by
  rw [List.getD_eq_getElem?_getD]
  simp [List.getElem?_map, List.getElem?_range hv]

/-- Modelled from the spec: the per-(time, node) index list kept in
`PRM_IMM::degreeRRIndicesWithTime[t][v]` after `_RebuildRRIndicesWithTime`
— positions of the labelled Store (`tableWithTime`) whose label is `t` and
whose member set contains `v`. -/
def hitIndicesWithTime (v t : Nat) (tableT : List (RRVec × Nat)) : List Nat :=
  idxWhere (fun e => e.2 == t && e.1.contains v) tableT 0

/-- Modelled from the spec: the full `degreeRRIndicesWithTime` structure
rebuilt by `PRM_IMM::_RebuildRRIndicesWithTime`, indexed by time bucket then
node id. -/
def rebuildDegreeRRIndicesWithTime (maxTime n : Nat) (tableT : List (RRVec × Nat)) :
    List (List (List Nat)) :=
  (List.range maxTime).map (fun t => (List.range n).map (fun v => hitIndicesWithTime v t tableT))

/-- C2: after a rebuild, for every node `v < n`, `degrees[v]` equals the
length of `degreeRRIndices[v]` and equals the number of Store entries (rows
of `table`) whose member set contains `v`. -/
theorem C2_rebuild_degree_invariant (n : Nat) (table : List RRVec) (v : Nat) (hv : v < n) :
    (rebuildDegrees n table).getD v 0 = ((rebuildDegreeRRIndices n table).getD v []).length ∧
    (rebuildDegrees n table).getD v 0 = (table.filter (fun s => s.contains v)).length := by
  rw [rebuildDegrees, rebuildDegreeRRIndices, getD_map_range _ n v hv, getD_map_range _ n v hv]
  constructor
  · rw [hitIndices, length_idxWhere, nodeDegree]
  · rw [nodeDegree, List.countP_eq_length_filter]

/-- Witness for C2 at a concrete store. -/
theorem C2_rebuild_degree_invariant_witness :
    (rebuildDegrees 3 [[0, 2], [1], [0]]).getD 0 0 =
      ((rebuildDegreeRRIndices 3 [[0, 2], [1], [0]]).getD 0 []).length ∧
    (rebuildDegrees 3 [[0, 2], [1], [0]]).getD 0 0 =
      (([[0, 2], [1], [0]] : List RRVec).filter (fun s => s.contains 0)).length :=
  C2_rebuild_degree_invariant 3 [[0, 2], [1], [0]] 0 (by decide)

/-- C10: every index stored by a rebuild (plain or time-indexed) is a valid
Store position, each per-node list has no duplicates, and the referenced
sample contains the node (and carries the right time label in the
time-indexed case), so index dereferences in the greedy loop are in
bounds. -/
theorem C10_rebuilt_indices_valid (table : List RRVec) (tableT : List (RRVec × Nat))
    (v t j j2 : Nat) (hj : j ∈ hitIndices v table) (hj2 : j2 ∈ hitIndicesWithTime v t tableT) :
    j < table.length ∧ (hitIndices v table).Nodup ∧ (table.getD j []).contains v = true ∧
    j2 < tableT.length ∧ (hitIndicesWithTime v t tableT).Nodup ∧
    (tableT.getD j2 ([], 0)).1.contains v = true ∧ (tableT.getD j2 ([], 0)).2 = t := by
  have h1 := mem_idxWhere_lt _ table 0 j hj
  have h2 := mem_idxWhere_getD _ table 0 j [] hj
  have h3 := mem_idxWhere_lt _ tableT 0 j2 hj2
  have h4 := mem_idxWhere_getD _ tableT 0 j2 ([], 0) hj2
  rw [Nat.sub_zero] at h2 h4
  rw [Bool.and_eq_true, beq_iff_eq] at h4
  exact ⟨by omega, nodup_idxWhere _ table 0, h2, by omega, nodup_idxWhere _ tableT 0,
    h4.2, h4.1⟩

/-- Witness for C10 at a concrete store and labelled store. -/
theorem C10_rebuilt_indices_valid_witness :
    (2 : Nat) < ([[0], [1], [0, 1]] : List RRVec).length ∧
    (hitIndices 0 [[0], [1], [0, 1]]).Nodup ∧
    (([[0], [1], [0, 1]] : List RRVec).getD 2 []).contains 0 = true ∧
    (0 : Nat) < ([([0], 1)] : List (RRVec × Nat)).length ∧
    (hitIndicesWithTime 0 1 [([0], 1)]).Nodup ∧
    (([([0], 1)] : List (RRVec × Nat)).getD 0 ([], 0)).1.contains 0 = true ∧
    (([([0], 1)] : List (RRVec × Nat)).getD 0 ([], 0)).2 = 1 :=
  C10_rebuilt_indices_valid [[0], [1], [0, 1]] [([0], 1)] 0 1 2 0 (by decide) (by decide)

/-! ## Greedy Selector -/

/-- Modelled from the spec: the marginal degree used by
`RRInflBase::_RunGreedy` — the number of not-yet-covered Store entries whose
member set contains `v`. -/
def marginalDeg (table : List RRVec) (covered : List Nat) (v : Nat) : Nat :=
  ((hitIndices v table).filter (fun i => !(covered.contains i))).length

/-- Modelled from the spec: lowest-id argmax scan used by the greedy pick —
returns the least `v < n` maximizing `f` (ties broken by lowest node id). -/
def bestUpTo (f : Nat → Nat) : Nat → Nat
  | 0 => 0
  | n + 1 => if f (bestUpTo f n) < f (n) then n else bestUpTo f n

theorem bestUpTo_lt (f : Nat → Nat) (n : Nat) (hn : 0 < n) : bestUpTo f n < n := by
  induction n with
  | zero => omega
  | succ m ih =>
    by_cases h : f (bestUpTo f m) < f m
    · simp [bestUpTo, h]
    · simp only [bestUpTo, h, if_false]
      rcases Nat.eq_zero_or_pos m with rfl | hm
      · simp [bestUpTo]
      · exact Nat.lt_succ_of_lt (ih hm)

theorem le_bestUpTo (f : Nat → Nat) (n v : Nat) (hv : v < n) :
    f v ≤ f (bestUpTo f n) := by
  induction n with
  | zero => omega
  | succ m ih =>
    by_cases h : f (bestUpTo f m) < f m
    · simp only [bestUpTo, h, if_true]
      rcases Nat.lt_succ_iff_lt_or_eq.mp hv with hv2 | rfl
      · exact Nat.le_of_lt (Nat.lt_of_le_of_lt (ih hv2) h)
      · exact Nat.le_refl _
    · simp only [bestUpTo, h, if_false]
      rcases Nat.lt_succ_iff_lt_or_eq.mp hv with hv2 | rfl
      · exact ih hv2
      · omega

theorem bestUpTo_le (f : Nat → Nat) (n : Nat) : bestUpTo f n ≤ n := by
  induction n with
  | zero => exact Nat.le_refl _
  | succ m ih =>
    by_cases h : f (bestUpTo f m) < f m
    · simp [bestUpTo, h]
    · simp only [bestUpTo, h, if_false]
      exact Nat.le_succ_of_le ih

theorem bestUpTo_le_of_eq (f : Nat → Nat) (n v : Nat) (hv : v < n)
    (heq : f v = f (bestUpTo f n)) : bestUpTo f n ≤ v := by
  induction n with
  | zero => omega
  | succ m ih =>
    by_cases h : f (bestUpTo f m) < f m
    · simp only [bestUpTo, h, if_true] at heq ⊢
      rcases Nat.lt_succ_iff_lt_or_eq.mp hv with hv2 | rfl
      · have := le_bestUpTo f m v hv2
        omega
      · exact Nat.le_refl _
    · simp only [bestUpTo, h, if_false] at heq ⊢
      rcases Nat.lt_succ_iff_lt_or_eq.mp hv with hv2 | rfl
      · exact ih hv2 heq
      · exact bestUpTo_le f _

/-- Modelled from the spec: `RRInflBase::_RunGreedy` — repeatedly pick the
node with the largest marginal degree (ties by lowest id), mark the samples
it hits covered, and record the cumulative covered-sample count; stop after
`fuel` picks or when no node has positive marginal degree.  Returns the seed
list and the cumulative covered counts, starting from coverage state
`covered`. -/
def runGreedy (n : Nat) (table : List RRVec) : Nat → List Nat → List Nat × List Nat
  | 0, _ => ([], [])
  | fuel + 1, covered =>
    let b := bestUpTo (marginalDeg table covered) n
    if marginalDeg table covered b = 0 then ([], [])
    else
      let covered2 := covered ++ (hitIndices b table).filter (fun i => !(covered.contains i))
      let rest := runGreedy n table fuel covered2
      (b :: rest.1, covered2.length :: rest.2)

/-- Modelled from the spec: the cumulative estimated influence trace of
`_RunGreedy`, each entry being (cumulative covered samples / total samples)
× n, starting from an empty coverage state. -/
def runGreedyInfl (n : Nat) (table : List RRVec) (budget : Nat) : List ℚ :=
  (runGreedy n table budget []).2.map (fun c : Nat => ((c : ℚ) * (n : ℚ)) / (table.length : ℚ))

theorem runGreedy_counts_chain (n : Nat) (table : List RRVec) (fuel : Nat)
    (covered : List Nat) :
    List.Chain' (· < ·) (covered.length :: (runGreedy n table fuel covered).2) := by
  induction fuel generalizing covered with
  | zero => simp [runGreedy]
  | succ m ih =>
    by_cases h : marginalDeg table covered (bestUpTo (marginalDeg table covered) n) = 0
    · simp [runGreedy, h]
    · simp only [runGreedy, h, if_false]
      set b := bestUpTo (marginalDeg table covered) n with hb
      set covered2 := covered ++ (hitIndices b table).filter (fun i => !(covered.contains i))
        with hc2
      have hlen : covered.length < covered2.length := by
        have : covered2.length = covered.length + marginalDeg table covered b := by
          rw [hc2, List.length_append, marginalDeg]
        omega
      exact List.chain'_cons.mpr ⟨hlen, ih covered2⟩

/-- C1: for every Hit Index state and budget ≥ 1, the cumulative estimated
influence sequence returned by the greedy selector is non-decreasing, and
strictly increasing up to the point where no node has positive marginal
degree (the selector stops there), each entry being the cumulative
covered-sample count scaled by n / total samples. -/
theorem C1_greedy_influence_monotone (n : Nat) (table : List RRVec) (budget : Nat)
    (hb : 1 ≤ budget) (hn : 0 < n) (ht : 0 < table.length) :
    List.Chain' (· ≤ ·) (runGreedyInfl n table budget) ∧
    List.Chain' (· < ·) (runGreedyInfl n table budget) ∧
    runGreedyInfl n table budget =
      (runGreedy n table budget []).2.map (fun c : Nat => ((c : ℚ) * (n : ℚ)) / (table.length : ℚ)) := by
  have hcounts : List.Chain' (· < ·) ((runGreedy n table budget []).2) := by
    simpa using (runGreedy_counts_chain n table budget []).tail
  have hstrict : List.Chain' (· < ·) (runGreedyInfl n table budget) := by
    rw [runGreedyInfl]
    refine List.chain'_map_of_chain' _ ?_ hcounts
    intro a b hab
    have hn2 : (0 : ℚ) < n := by exact_mod_cast hn
    have ht2 : (0 : ℚ) < table.length := by exact_mod_cast ht
    apply (div_lt_div_iff_of_pos_right ht2).mpr
    have hab2 : (a : ℚ) < b := by exact_mod_cast hab
    exact mul_lt_mul_of_pos_right hab2 hn2
  exact ⟨hstrict.imp (fun a b h => le_of_lt h), hstrict, rfl⟩

/-- Witness for C1 on a concrete store with two samples and two nodes. -/
theorem C1_greedy_influence_monotone_witness :
    List.Chain' (· ≤ ·) (runGreedyInfl 2 [[0], [0, 1]] 2) ∧
    List.Chain' (· < ·) (runGreedyInfl 2 [[0], [0, 1]] 2) ∧
    runGreedyInfl 2 [[0], [0, 1]] 2 =
      (runGreedy 2 [[0], [0, 1]] 2 []).2.map
        (fun c : Nat => ((c : ℚ) * ((2 : Nat) : ℚ)) / ((([[0], [0, 1]] : List RRVec).length : Nat) : ℚ)) :=
  C1_greedy_influence_monotone 2 [[0], [0, 1]] 2 (by decide) (by decide) (by decide)

/-! ## Sampler (reverse-reachable set generation) -/

/-- Modelled from the spec: the deterministic pseudo-random stream driving
root selection (spec 4.1; the spec requires only a deterministic stream from
a fixed seed), as a linear congruential generator. -/
def lcg (s : Nat) : Nat := (1103515245 * s + 12345) % 2147483648

/-- Modelled from the spec: one expansion step of reverse reachability over
a live-edge realization — every new node `u` with a live edge `u → w` into
the current set is added. -/
def reachStep (edges : List (Nat × Nat)) (cur : List Nat) : List Nat :=
  cur ++ ((edges.filter (fun e => cur.contains e.2 && !(cur.contains e.1))).map Prod.fst).dedup

/-- Modelled from the spec: the reverse-reachable sample of `root` under one
live-edge realization (the cascade collaborator of spec 6) — `steps` rounds
of expansion starting from the root alone. -/
def rrSample (steps : Nat) (edges : List (Nat × Nat)) (root : Nat) : List Nat :=
  match steps with
  | 0 => [root]
  | k + 1 => reachStep edges (rrSample k edges root)

theorem root_mem_rrSample (steps : Nat) (edges : List (Nat × Nat)) (root : Nat) :
    root ∈ rrSample steps edges root := by
  induction steps with
  | zero => simp [rrSample]
  | succ k ih =>
    simp only [rrSample, reachStep]
    exact List.mem_append_left _ ih

theorem mem_rrSample_lt (steps : Nat) (edges : List (Nat × Nat)) (root n : Nat)
    (hroot : root < n) (hedges : ∀ e ∈ edges, e.1 < n) :
    ∀ v ∈ rrSample steps edges root, v < n := by
  induction steps with
  | zero =>
    intro v hv
    simp only [rrSample, List.mem_singleton] at hv
    omega
  | succ k ih =>
    intro v hv
    simp only [rrSample, reachStep, List.mem_append] at hv
    rcases hv with hv | hv
    · exact ih v hv
    · rw [List.mem_dedup] at hv
      obtain ⟨e, he, rfl⟩ := List.mem_map.mp hv
      exact hedges e (List.mem_filter.mp he).1

/-- Modelled from the spec: `RRInflBase::_AddRRSimulation` (body not in the
header) — generate `num_iter` RR samples, each rooted at a node drawn from
the random stream, recording the member set in the Store and the root in
`targets`; `edgesOf s` is the live-edge realization drawn at random state
`s`.  Returns (new samples, new targets, advanced random state). -/
def addRRSimulation (n steps : Nat) (edgesOf : Nat → List (Nat × Nat)) :
    Nat → Nat → List RRVec × List Nat × Nat
  | 0, rng => ([], [], rng)
  | k + 1, rng =>
    let root := rng % n
    let sample := rrSample steps (edgesOf rng) root
    let rest := addRRSimulation n steps edgesOf k (lcg rng)
    (sample :: rest.1, root :: rest.2.1, rest.2.2)

/-! ## Shapley sampler -/

/-- Modelled from the spec: add `q` into accumulator position `v`. -/
def addAt (l : List ℚ) (v : Nat) (q : ℚ) : List ℚ := l.set v (l.getD v 0 + q)

/-- Modelled from the spec: the per-sample credit distribution of
`ShapleyInfl::Shapley_AddRRSimulation` — every member node of the sample
receives fractional credit 1/|sample| into its accumulator. -/
def creditSample (shapleyV : List ℚ) (s : RRVec) : List ℚ :=
  s.foldl (fun acc v => addAt acc v (1 / (s.length : ℚ))) shapleyV

/-- Modelled from the spec: the per-node hit-count tracking of
`Shapley_AddRRSimulation` (hitCount[i] = number of RR sets hitting node i). -/
def hitSample (hitCount : List Nat) (s : RRVec) : List Nat :=
  s.foldl (fun acc v => acc.set v (acc.getD v 0 + 1)) hitCount

/-- Modelled from the spec: `ShapleyInfl::Shapley_AddRRSimulation` (body not
in the header) — a dedicated sampling pass that, per generated RR sample,
distributes fractional credit 1/|sample| to every member node and tracks hit
counts.  Returns (shapley accumulators, hit counts, generated (sample, root)
pairs, advanced random state). -/
def shapleyAddRRSimulation (n steps : Nat) (edgesOf : Nat → List (Nat × Nat)) :
    Nat → Nat → List ℚ → List Nat → List ℚ × List Nat × List (RRVec × Nat) × Nat
  | 0, rng, shapleyV, hitCount => (shapleyV, hitCount, [], rng)
  | k + 1, rng, shapleyV, hitCount =>
    let root := rng % n
    let sample := rrSample steps (edgesOf rng) root
    let rest := shapleyAddRRSimulation n steps edgesOf k (lcg rng)
      (creditSample shapleyV sample) (hitSample hitCount sample)
    (rest.1, rest.2.1, (sample, root) :: rest.2.2.1, rest.2.2.2)

/-- C8: every RR sample generated by the sampler — both by
`_AddRRSimulation` and by `Shapley_AddRRSimulation` — contains the root node
recorded for it. -/
theorem C8_root_mem_sample (n steps : Nat) (edgesOf : Nat → List (Nat × Nat))
    (k rng i : Nat) (shapleyV : List ℚ) (hitCount : List Nat) (hik : i < k) :
    (addRRSimulation n steps edgesOf k rng).2.1.getD i 0 ∈
      (addRRSimulation n steps edgesOf k rng).1.getD i [] ∧
    ((shapleyAddRRSimulation n steps edgesOf k rng shapleyV hitCount).2.2.1.getD i ([], 0)).2 ∈
      ((shapleyAddRRSimulation n steps edgesOf k rng shapleyV hitCount).2.2.1.getD i ([], 0)).1 := by
  induction k generalizing rng i shapleyV hitCount with
  | zero => omega
  | succ m ih =>
    cases i with
    | zero =>
      constructor
      · simpa [addRRSimulation] using root_mem_rrSample steps (edgesOf rng) (rng % n)
      · simpa [shapleyAddRRSimulation] using root_mem_rrSample steps (edgesOf rng) (rng % n)
    | succ i2 =>
      have hrec := ih (lcg rng) i2 (creditSample shapleyV (rrSample steps (edgesOf rng) (rng % n)))
        (hitSample hitCount (rrSample steps (edgesOf rng) (rng % n))) (by omega)
      constructor
      · simpa [addRRSimulation] using hrec.1
      · simpa [shapleyAddRRSimulation] using hrec.2

/-- Witness for C8: one sample over a single live edge. -/
theorem C8_root_mem_sample_witness :
    (addRRSimulation 2 1 (fun _ => [(0, 1)]) 1 1).2.1.getD 0 0 ∈
      (addRRSimulation 2 1 (fun _ => [(0, 1)]) 1 1).1.getD 0 [] ∧
    ((shapleyAddRRSimulation 2 1 (fun _ => [(0, 1)]) 1 1 [0, 0] [0, 0]).2.2.1.getD 0
        ([], 0)).2 ∈
      ((shapleyAddRRSimulation 2 1 (fun _ => [(0, 1)]) 1 1 [0, 0] [0, 0]).2.2.1.getD 0
        ([], 0)).1 :=
  C8_root_mem_sample 2 1 (fun _ => [(0, 1)]) 1 1 0 [0, 0] [0, 0] (by decide)

theorem length_addAt (l : List ℚ) (v : Nat) (q : ℚ) : (addAt l v q).length = l.length :=
  List.length_set l v _

theorem sum_addAt (l : List ℚ) (v : Nat) (q : ℚ) (hv : v < l.length) :
    (addAt l v q).sum = l.sum + q := by
  induction l generalizing v with
  | nil => simp at hv
  | cons a rest ih =>
    cases v with
    | zero =>
      simp only [addAt, List.getD_cons_zero, List.set_cons_zero, List.sum_cons]
      ring
    | succ v2 =>
      have hv2 : v2 < rest.length := by simpa using hv
      have harec := ih v2 hv2
      simp only [addAt, List.getD_cons_succ, List.set_cons_succ, List.sum_cons] at harec ⊢
      rw [harec]
      ring

theorem sum_foldl_addAt (s : List Nat) (V : List ℚ) (q : ℚ)
    (hmem : ∀ v ∈ s, v < V.length) :
    (s.foldl (fun acc v => addAt acc v q) V).sum = V.sum + s.length * q := by
  induction s generalizing V with
  | nil => simp
  | cons a rest ih =>
    have hmem2 : ∀ v ∈ rest, v < (addAt V a q).length := by
      intro v hv
      rw [length_addAt]
      exact hmem v (List.mem_cons_of_mem a hv)
    simp only [List.foldl_cons]
    rw [ih (addAt V a q) hmem2, sum_addAt V a q (hmem a (List.mem_cons_self a rest))]
    simp only [List.length_cons]
    push_cast
    ring

theorem length_foldl_addAt (s : List Nat) (V : List ℚ) (q : ℚ) :
    (s.foldl (fun acc v => addAt acc v q) V).length = V.length := by
  induction s generalizing V with
  | nil => rfl
  | cons a rest ih => rw [List.foldl_cons, ih, length_addAt]

theorem sum_creditSample (V : List ℚ) (s : RRVec) (hne : s ≠ [])
    (hmem : ∀ v ∈ s, v < V.length) :
    (creditSample V s).sum = V.sum + 1 := by
  rw [creditSample, sum_foldl_addAt s V _ hmem]
  have h0 : (s.length : ℚ) ≠ 0 := by
    have := List.length_pos.mpr hne
    positivity
  rw [mul_one_div, div_self h0]

theorem length_creditSample (V : List ℚ) (s : RRVec) :
    (creditSample V s).length = V.length :=
  length_foldl_addAt s V _

theorem shapley_sum_invariant (n steps : Nat) (edgesOf : Nat → List (Nat × Nat))
    (hn : 0 < n) (hedges : ∀ s, ∀ e ∈ edgesOf s, e.1 < n) (k : Nat) :
    ∀ rng (V : List ℚ) (hitCount : List Nat), V.length = n →
      (shapleyAddRRSimulation n steps edgesOf k rng V hitCount).1.sum = V.sum + k := by
  induction k with
  | zero => intro rng V hitCount hV; simp [shapleyAddRRSimulation]
  | succ m ih =>
    intro rng V hitCount hV
    have hroot : rng % n < n := Nat.mod_lt _ hn
    have hmem : ∀ v ∈ rrSample steps (edgesOf rng) (rng % n), v < V.length := by
      rw [hV]
      exact mem_rrSample_lt steps (edgesOf rng) (rng % n) n hroot (hedges rng)
    have hne : rrSample steps (edgesOf rng) (rng % n) ≠ [] :=
      List.ne_nil_of_mem (root_mem_rrSample steps (edgesOf rng) (rng % n))
    have hlen : (creditSample V (rrSample steps (edgesOf rng) (rng % n))).length = n := by
      rw [length_creditSample, hV]
    simp only [shapleyAddRRSimulation]
    rw [ih (lcg rng) _ _ hlen, sum_creditSample V _ hne hmem]
    push_cast
    ring

/-- C5: Shapley credit conservation — after `Shapley_AddRRSimulation`
generates `k` RR samples (starting from all-zero accumulators), the total
credit summed over all nodes equals exactly `k`: each sample contributes
total credit 1, split 1/|sample| per member node. -/
theorem C5_shapley_credit_conservation (n steps : Nat) (edgesOf : Nat → List (Nat × Nat))
    (k rng : Nat) (hitCount : List Nat) (hn : 0 < n)
    (hedges : ∀ s, ∀ e ∈ edgesOf s, e.1 < n) :
    (shapleyAddRRSimulation n steps edgesOf k rng (List.replicate n 0) hitCount).1.sum = k := by
  rw [shapley_sum_invariant n steps edgesOf hn hedges k rng (List.replicate n 0) hitCount
    (List.length_replicate n 0)]
  simp

/-- Witness for C5: two samples over one live edge on two nodes. -/
theorem C5_shapley_credit_conservation_witness :
    (shapleyAddRRSimulation 2 1 (fun _ => [(0, 1)]) 2 1 (List.replicate 2 0) [0, 0]).1.sum = 2 :=
  C5_shapley_credit_conservation 2 1 (fun _ => [(0, 1)]) 2 1 [0, 0] (by decide)
    (by intro s e he; simp only [List.mem_singleton] at he; subst he; decide)

/-! ## Capped doubling / refinement loops -/

/-- Modelled from the spec: the generic capped doubling search used by the
drivers — double the working quantity until the threshold check passes or
the fixed round cap is exhausted, returning the current best value and the
number of doubling rounds used. -/
def cappedDoubling (crossed : Nat → Bool) : Nat → Nat → Nat × Nat
  | 0, x => (x, 0)
  | cap + 1, x =>
    if crossed x then (x, 0)
    else
      let r := cappedDoubling crossed cap (2 * x)
      (r.1, r.2 + 1)

/-- Modelled from the spec: `RRInfl::BuildInError`'s tolerance-driven θ
doubling loop, bounded by a fixed round cap. -/
def buildInErrorLoop (crossed : Nat → Bool) (cap theta0 : Nat) : Nat × Nat :=
  cappedDoubling crossed cap theta0

/-- Modelled from the spec: TimPlus stage-1 calibration doubling on the OPT
lower bound, bounded by a fixed round cap. -/
def timPlusStage1Loop (crossed : Nat → Bool) (cap lb0 : Nat) : Nat × Nat :=
  cappedDoubling crossed cap lb0

/-- Modelled from the spec: IMM's log2(n)-round doubling search maintaining
the best-so-far OPT lower bound. -/
def immDoublingSearch (crossed : Nat → Bool) (n x0 : Nat) : Nat × Nat :=
  cappedDoubling crossed (Nat.log2 n) x0

theorem cappedDoubling_rounds_le (crossed : Nat → Bool) (cap : Nat) :
    ∀ x, (cappedDoubling crossed cap x).2 ≤ cap := by
  induction cap with
  | zero => intro x; simp [cappedDoubling]
  | succ m ih =>
    intro x
    by_cases h : crossed x
    · simp [cappedDoubling, h]
    · simp only [cappedDoubling, h, if_false]
      exact Nat.succ_le_succ (ih (2 * x))

theorem cappedDoubling_never (crossed : Nat → Bool) (hnc : ∀ t, crossed t = false)
    (cap : Nat) : ∀ x, cappedDoubling crossed cap x = (2 ^ cap * x, cap) := by
  induction cap with
  | zero => intro x; simp [cappedDoubling]
  | succ m ih =>
    intro x
    simp only [cappedDoubling, hnc x, Bool.false_eq_true, if_false, ih (2 * x)]
    rw [Prod.mk.injEq]
    refine ⟨by ring, rfl⟩

/-- C6: every doubling/refinement loop in the drivers (BuildInError's
tolerance loop, TimPlus stage-1 calibration, IMM's log2(n)-round search)
uses at most its fixed round cap even when the theoretical threshold is
never crossed, and then returns its best current estimate (the value after
cap doublings) rather than failing. -/
theorem C6_doubling_loops_capped (crossed : Nat → Bool) (cap theta0 lb0 n x0 : Nat)
    (hnc : ∀ t, crossed t = false) :
    (buildInErrorLoop crossed cap theta0).2 ≤ cap ∧
    (buildInErrorLoop crossed cap theta0).1 = 2 ^ cap * theta0 ∧
    (timPlusStage1Loop crossed cap lb0).2 ≤ cap ∧
    (timPlusStage1Loop crossed cap lb0).1 = 2 ^ cap * lb0 ∧
    (immDoublingSearch crossed n x0).2 ≤ Nat.log2 n ∧
    (immDoublingSearch crossed n x0).1 = 2 ^ Nat.log2 n * x0 := by
  refine ⟨?_, ?_, ?_, ?_, ?_, ?_⟩ <;>
    simp [buildInErrorLoop, timPlusStage1Loop, immDoublingSearch,
      cappedDoubling_never crossed hnc]

/-- Witness for C6 with a threshold that is never crossed. -/
theorem C6_doubling_loops_capped_witness :
    (buildInErrorLoop (fun _ => false) 3 5).2 ≤ 3 ∧
    (buildInErrorLoop (fun _ => false) 3 5).1 = 2 ^ 3 * 5 ∧
    (timPlusStage1Loop (fun _ => false) 3 1).2 ≤ 3 ∧
    (timPlusStage1Loop (fun _ => false) 3 1).1 = 2 ^ 3 * 1 ∧
    (immDoublingSearch (fun _ => false) 8 2).2 ≤ Nat.log2 8 ∧
    (immDoublingSearch (fun _ => false) 8 2).1 = 2 ^ Nat.log2 8 * 2 :=
  C6_doubling_loops_capped (fun _ => false) 3 5 1 8 2 (fun _ => rfl)

/-! ## Driver Build pipeline -/

/-- Modelled from the spec: the error taxonomy surfaced by the drivers
(spec 7). -/
inductive BuildError where
  | invalidParameter
deriving DecidableEq

/-- Modelled from the spec: the observable outcome of a driver Build call —
the Sample Store contents, the recorded roots, the produced seed list, the
influence trace, the output files written, and the surfaced error, if any. -/
structure DriverOutcome where
  store : List RRVec
  targets : List Nat
  seeds : Option (List Nat)
  influence : List ℚ
  writes : List String
  error : Option BuildError

/-- Modelled from the spec: the common driver Build pipeline
(`RRInfl::Build` … `PRM_IMM::Build`, bodies not in the header): validate the
parameters first; on an invalid parameter (k ≤ 0, k ≥ n, ε ≤ 0 or ε ≥ 1)
reject before any sampling — Store left empty, no seed list, no output file
written; otherwise sample θ RR sets, rebuild the Hit Index, run greedy, and
write the seed file.  `isConcurrent` mirrors `RRInflBase::isConcurrent`; the
model computes the sequential schedule (spec 5: sampling must present a
consistent, complete Store to the Selector in either mode). -/
def driverBuild (n steps : Nat) (edgesOf : Nat → List (Nat × Nat)) (isConcurrent : Bool)
    (rng : Nat) (k : Int) (eps : ℚ) (theta : Nat) (file : String) : DriverOutcome :=
  if k ≤ 0 ∨ (n : Int) ≤ k ∨ eps ≤ 0 ∨ 1 ≤ eps then
    { store := [], targets := [], seeds := none, influence := [], writes := [],
      error := some BuildError.invalidParameter }
  else
    let r := addRRSimulation n steps edgesOf theta rng
    let g := runGreedy n r.1 k.toNat []
    { store := r.1, targets := r.2.1, seeds := some g.1,
      influence := runGreedyInfl n r.1 k.toNat, writes := [file], error := none }

/-- C3: a driver Build call with an invalid parameter (k ≤ 0, k ≥ n, ε ≤ 0
or ε ≥ 1) is rejected before any sampling: the Store stays empty, no seed
list is produced, no output file is written, and InvalidParameter is
surfaced. -/
theorem C3_invalid_params_rejected (n steps : Nat) (edgesOf : Nat → List (Nat × Nat))
    (isConcurrent : Bool) (rng : Nat) (k : Int) (eps : ℚ) (theta : Nat) (file : String)
    (hbad : k ≤ 0 ∨ (n : Int) ≤ k ∨ eps ≤ 0 ∨ 1 ≤ eps) :
    (driverBuild n steps edgesOf isConcurrent rng k eps theta file).store = [] ∧
    (driverBuild n steps edgesOf isConcurrent rng k eps theta file).seeds = none ∧
    (driverBuild n steps edgesOf isConcurrent rng k eps theta file).writes = [] ∧
    (driverBuild n steps edgesOf isConcurrent rng k eps theta file).error =
      some BuildError.invalidParameter := by
  rw [driverBuild, if_pos hbad]
  exact ⟨rfl, rfl, rfl, rfl⟩

/-- Witness for C3: k = 7 on a graph with n = 5 nodes (k ≥ n). -/
theorem C3_invalid_params_rejected_witness :
    (driverBuild 5 1 (fun _ => []) false 3 7 (1 / 2) 100 "rr_infl.txt").store = [] ∧
    (driverBuild 5 1 (fun _ => []) false 3 7 (1 / 2) 100 "rr_infl.txt").seeds = none ∧
    (driverBuild 5 1 (fun _ => []) false 3 7 (1 / 2) 100 "rr_infl.txt").writes = [] ∧
    (driverBuild 5 1 (fun _ => []) false 3 7 (1 / 2) 100 "rr_infl.txt").error =
      some BuildError.invalidParameter :=
  C3_invalid_params_rejected 5 1 (fun _ => []) false 3 7 (1 / 2) 100 "rr_infl.txt"
    (Or.inr (Or.inl (by norm_num)))

/-- C7: with a fixed random seed and `isConcurrent = false`, two runs of the
same driver on the same graph and parameters produce identical seed lists;
and the greedy selector breaks ties among nodes of equal marginal degree
deterministically by lowest node id — its pick attains the maximum marginal
degree and is ≤ every node attaining the same marginal degree. -/
theorem C7_determinism_and_tiebreak (n steps : Nat) (edgesOf : Nat → List (Nat × Nat))
    (rng : Nat) (k : Int) (eps : ℚ) (theta : Nat) (file : String) (r1 r2 : DriverOutcome)
    (h1 : r1 = driverBuild n steps edgesOf false rng k eps theta file)
    (h2 : r2 = driverBuild n steps edgesOf false rng k eps theta file)
    (table : List RRVec) (covered : List Nat) (m v : Nat) (hv : v < m) :
    r1.seeds = r2.seeds ∧
    marginalDeg table covered v ≤
      marginalDeg table covered (bestUpTo (marginalDeg table covered) m) ∧
    (marginalDeg table covered v =
        marginalDeg table covered (bestUpTo (marginalDeg table covered) m) →
      bestUpTo (marginalDeg table covered) m ≤ v) :=
  ⟨by rw [h1, h2], le_bestUpTo (marginalDeg table covered) m v hv,
    fun he => bestUpTo_le_of_eq (marginalDeg table covered) m v hv he⟩

/-- Witness for C7: a run with seed 7 and a two-node tie broken towards
node 0. -/
theorem C7_determinism_and_tiebreak_witness :
    (driverBuild 2 1 (fun _ => [(0, 1)]) false 7 1 (1 / 2) 3 "rr_infl.txt").seeds =
      (driverBuild 2 1 (fun _ => [(0, 1)]) false 7 1 (1 / 2) 3 "rr_infl.txt").seeds ∧
    marginalDeg [[0, 1], [1, 0]] [] 0 ≤
      marginalDeg [[0, 1], [1, 0]] [] (bestUpTo (marginalDeg [[0, 1], [1, 0]] []) 2) ∧
    (marginalDeg [[0, 1], [1, 0]] [] 0 =
        marginalDeg [[0, 1], [1, 0]] [] (bestUpTo (marginalDeg [[0, 1], [1, 0]] []) 2) →
      bestUpTo (marginalDeg [[0, 1], [1, 0]] []) 2 ≤ 0) :=
  C7_determinism_and_tiebreak 2 1 (fun _ => [(0, 1)]) 7 1 (1 / 2) 3 "rr_infl.txt" _ _ rfl rfl
    [[0, 1], [1, 0]] [] 2 0 (by decide)

/-! ## Sample-Size Estimator bounds -/

/-- Modelled from the spec: `RRInfl::DefaultRounds` (body not in the header)
— the closed-form Borgs et al. rounds bound, an increasing function of the
graph size (n nodes, m edges), decreasing in ε: 144 (m + n) ln n / ε³. -/
noncomputable def DefaultRounds (n m : Nat) (eps : ℝ) : ℝ :=
  144 * ((m : ℝ) + (n : ℝ)) * Real.log n / eps ^ 3

/-- Modelled from the spec: `TimPlus::LogNChooseK` — computes log C(n, k)
(via a numerically stable summation of logs in the code; its exact value
here). -/
noncomputable def LogNChooseK (n k : Nat) : ℝ := Real.log (Nat.choose n k)

/-- Modelled from the spec: `TimPlus::RThreshold` — the Lemma 3 bound of the
TIM+ paper: (8 + 2ε) · n · (ℓ ln n + log C(n,k) + ln 2) / (OPT · ε²). -/
noncomputable def RThreshold (n : Nat) (eps opt : ℝ) (k : Nat) (ell : ℝ) : ℝ :=
  (8 + 2 * eps) * (n : ℝ) * (ell * Real.log n + LogNChooseK n k + Real.log 2) /
    (opt * eps ^ 2)

/-- Modelled from the spec: the α term of Equation (6) of the IMM paper. -/
noncomputable def alphaIMM (n : Nat) (ell : ℝ) : ℝ :=
  Real.sqrt (ell * Real.log n + Real.log 2)

/-- Modelled from the spec: the β term of Equation (6) of the IMM paper. -/
noncomputable def betaIMM (n k : Nat) (ell : ℝ) : ℝ :=
  Real.sqrt ((1 - 1 / Real.exp 1) * (ell * Real.log n + LogNChooseK n k + Real.log 2))

/-- Modelled from the spec: the bracketed sum ((1 − 1/e)·α + β) of Equation
(6) of the IMM paper. -/
noncomputable def immSumTerm (n k : Nat) (ell : ℝ) : ℝ :=
  (1 - 1 / Real.exp 1) * alphaIMM n ell + betaIMM n k ell

/-- Modelled from the spec: `IMM::LambdaStar` — Equation (6) of the IMM
paper: λ* = 2n · ((1 − 1/e)·α + β)² · ε⁻². -/
noncomputable def LambdaStar (eps : ℝ) (k : Nat) (ell : ℝ) (n : Nat) : ℝ :=
  2 * (n : ℝ) * immSumTerm n k ell ^ 2 / eps ^ 2

theorem one_sub_inv_exp_nonneg : (0 : ℝ) ≤ 1 - 1 / Real.exp 1 := by
  have h := Real.add_one_le_exp (1 : ℝ)
  have hpos := Real.exp_pos (1 : ℝ)
  have : 1 / Real.exp 1 ≤ 1 := by
    rw [div_le_one hpos]
    linarith
  linarith

theorem logNChooseK_nonneg (n k : Nat) (h : k ≤ n) : 0 ≤ LogNChooseK n k := by
  refine Real.log_nonneg ?_
  exact_mod_cast Nat.one_le_iff_ne_zero.mpr (Nat.pos_iff_ne_zero.mp (Nat.choose_pos h))

theorem logNChooseK_mono_left (k n1 n2 : Nat) (hk : k ≤ n1) (h12 : n1 ≤ n2) :
    LogNChooseK n1 k ≤ LogNChooseK n2 k := by
  refine Real.log_le_log ?_ ?_
  · exact_mod_cast Nat.choose_pos hk
  · exact_mod_cast Nat.choose_le_choose k h12

theorem choose_mono_right_of_half (n k1 k2 : Nat) (h12 : k1 ≤ k2) (hhalf : 2 * k2 ≤ n) :
    Nat.choose n k1 ≤ Nat.choose n k2 := by
  induction k2 with
  | zero =>
    have : k1 = 0 := Nat.le_zero.mp h12
    simp [this]
  | succ j ih =>
    rcases Nat.lt_succ_iff_lt_or_eq.mp (Nat.lt_succ_of_le h12) with hlt | rfl
    · have hj : k1 ≤ j := by omega
      have hstep : Nat.choose n j ≤ Nat.choose n (j + 1) := by
        refine Nat.choose_le_succ_of_lt_half_left ?_
        have : j + 1 ≤ n / 2 := by
          rw [Nat.le_div_iff_mul_le (by omega : 0 < 2)]
          omega
        omega
      exact Nat.le_trans (ih hj (by omega)) hstep
    · exact Nat.le_refl _

theorem logNChooseK_mono_right (n k1 k2 : Nat) (h12 : k1 ≤ k2) (hhalf : 2 * k2 ≤ n) :
    LogNChooseK n k1 ≤ LogNChooseK n k2 := by
  refine Real.log_le_log ?_ ?_
  · exact_mod_cast Nat.choose_pos (by omega : k1 ≤ n)
  · exact_mod_cast choose_mono_right_of_half n k1 k2 h12 hhalf

theorem epsFactor_antitone (a b : ℝ) (ha : 0 < a) (hab : a ≤ b) :
    (8 + 2 * b) / b ^ 2 ≤ (8 + 2 * a) / a ^ 2 := by
  have hb : 0 < b := lt_of_lt_of_le ha hab
  rw [div_le_div_iff (by positivity) (by positivity)]
  nlinarith [mul_pos ha hb, mul_nonneg (mul_pos ha hb).le (sub_nonneg.mpr hab),
    mul_nonneg (sub_nonneg.mpr hab) (add_pos ha hb).le]

theorem RThreshold_factored (n : Nat) (e opt : ℝ) (k : Nat) (ell : ℝ)
    (he : e ≠ 0) (hopt : opt ≠ 0) :
    RThreshold n e opt k ell =
      ((8 + 2 * e) / e ^ 2) *
        ((n : ℝ) * (ell * Real.log n + LogNChooseK n k + Real.log 2) / opt) := by
  rw [RThreshold]
  field_simp
  ring

/-- C4 (amended): with the other parameters held fixed, DefaultRounds,
RThreshold and LambdaStar are non-increasing in ε and non-decreasing in n;
RThreshold and LambdaStar are non-decreasing in k on the range where the
binomial coefficient grows (2k ≤ n), while DefaultRounds takes no k
argument (so it is trivially non-decreasing in k).  Unrestricted
k-monotonicity fails, see the counterexample. -/
theorem C4_sample_size_monotonicity_amended (n n1 n2 m k k1 k2 : Nat) (a b opt ell : ℝ)
    (ha : 0 < a) (hab : a ≤ b) (hn : 1 ≤ n) (hk : k ≤ n) (hopt : 0 < opt)
    (hell : 0 ≤ ell) (hn1 : 1 ≤ n1) (hn12 : n1 ≤ n2) (hkn1 : k ≤ n1)
    (h12 : k1 ≤ k2) (hhalf : 2 * k2 ≤ n) :
    DefaultRounds n m b ≤ DefaultRounds n m a ∧
    RThreshold n b opt k ell ≤ RThreshold n a opt k ell ∧
    LambdaStar b k ell n ≤ LambdaStar a k ell n ∧
    DefaultRounds n1 m a ≤ DefaultRounds n2 m a ∧
    RThreshold n1 a opt k ell ≤ RThreshold n2 a opt k ell ∧
    LambdaStar a k ell n1 ≤ LambdaStar a k ell n2 ∧
    RThreshold n a opt k1 ell ≤ RThreshold n a opt k2 ell ∧
    LambdaStar a k1 ell n ≤ LambdaStar a k2 ell n := by
  have hb : 0 < b := lt_of_lt_of_le ha hab
  have hlogn : 0 ≤ Real.log n := Real.log_nonneg (by exact_mod_cast hn)
  have hlogn1 : 0 ≤ Real.log n1 := Real.log_nonneg (by exact_mod_cast hn1)
  have hlog2 : 0 ≤ Real.log 2 := Real.log_nonneg (by norm_num)
  have hcast12 : (n1 : ℝ) ≤ (n2 : ℝ) := Nat.cast_le.mpr hn12
  have hlog12 : Real.log n1 ≤ Real.log n2 :=
    Real.log_le_log (by exact_mod_cast hn1) hcast12
  have hlc : 0 ≤ LogNChooseK n k := logNChooseK_nonneg n k hk
  have hlc1 : 0 ≤ LogNChooseK n1 k := logNChooseK_nonneg n1 k hkn1
  have hlc12 : LogNChooseK n1 k ≤ LogNChooseK n2 k := logNChooseK_mono_left k n1 n2 hkn1 hn12
  have hlck1 : 0 ≤ LogNChooseK n k1 := logNChooseK_nonneg n k1 (by omega)
  have hlckk : LogNChooseK n k1 ≤ LogNChooseK n k2 := logNChooseK_mono_right n k1 k2 h12 hhalf
  have hX : 0 ≤ ell * Real.log n + LogNChooseK n k + Real.log 2 := by
    have := mul_nonneg hell hlogn
    linarith
  have hsum1 : 0 ≤ immSumTerm n1 k ell := by
    rw [immSumTerm]
    have := mul_nonneg one_sub_inv_exp_nonneg (Real.sqrt_nonneg (ell * Real.log n1 + Real.log 2))
    have := Real.sqrt_nonneg ((1 - 1 / Real.exp 1) *
      (ell * Real.log n1 + LogNChooseK n1 k + Real.log 2))
    rw [alphaIMM, betaIMM]
    linarith
  have hsumk1 : 0 ≤ immSumTerm n k1 ell := by
    rw [immSumTerm]
    have := mul_nonneg one_sub_inv_exp_nonneg (Real.sqrt_nonneg (ell * Real.log n + Real.log 2))
    have := Real.sqrt_nonneg ((1 - 1 / Real.exp 1) *
      (ell * Real.log n + LogNChooseK n k1 + Real.log 2))
    rw [alphaIMM, betaIMM]
    linarith
  have hsum12 : immSumTerm n1 k ell ≤ immSumTerm n2 k ell := by
    rw [immSumTerm, immSumTerm]
    have halpha : alphaIMM n1 ell ≤ alphaIMM n2 ell := by
      rw [alphaIMM, alphaIMM]
      have : ell * Real.log n1 ≤ ell * Real.log n2 := mul_le_mul_of_nonneg_left hlog12 hell
      exact Real.sqrt_le_sqrt (by linarith)
    have hbeta : betaIMM n1 k ell ≤ betaIMM n2 k ell := by
      rw [betaIMM, betaIMM]
      have h1 : ell * Real.log n1 ≤ ell * Real.log n2 := mul_le_mul_of_nonneg_left hlog12 hell
      exact Real.sqrt_le_sqrt (mul_le_mul_of_nonneg_left (by linarith) one_sub_inv_exp_nonneg)
    have := mul_le_mul_of_nonneg_left halpha one_sub_inv_exp_nonneg
    linarith
  have hsumk : immSumTerm n k1 ell ≤ immSumTerm n k2 ell := by
    rw [immSumTerm, immSumTerm]
    have hbeta : betaIMM n k1 ell ≤ betaIMM n k2 ell := by
      rw [betaIMM, betaIMM]
      exact Real.sqrt_le_sqrt (mul_le_mul_of_nonneg_left (by linarith) one_sub_inv_exp_nonneg)
    linarith
  refine ⟨?_, ?_, ?_, ?_, ?_, ?_, ?_, ?_⟩
  · rw [DefaultRounds, DefaultRounds]
    have hnum : 0 ≤ 144 * ((m : ℝ) + (n : ℝ)) * Real.log n := by positivity
    gcongr
  · rw [RThreshold_factored n a opt k ell (ne_of_gt ha) (ne_of_gt hopt),
      RThreshold_factored n b opt k ell (ne_of_gt hb) (ne_of_gt hopt)]
    have hT : 0 ≤ (n : ℝ) * (ell * Real.log n + LogNChooseK n k + Real.log 2) / opt := by
      apply div_nonneg _ hopt.le
      exact mul_nonneg (Nat.cast_nonneg n) hX
    exact mul_le_mul_of_nonneg_right (epsFactor_antitone a b ha hab) hT
  · rw [LambdaStar, LambdaStar]
    have hnum : 0 ≤ 2 * (n : ℝ) * immSumTerm n k ell ^ 2 := by positivity
    gcongr
  · rw [DefaultRounds, DefaultRounds]
    gcongr
  · rw [RThreshold, RThreshold]
    gcongr
  · rw [LambdaStar, LambdaStar]
    gcongr
  · rw [RThreshold, RThreshold]
    gcongr
  · rw [LambdaStar, LambdaStar]
    gcongr

/-- Counterexample to C4 as stated: with all other parameters fixed and
valid (n = 5, ε = 1/2, OPT = 1, ℓ = 1), RThreshold strictly decreases when
the budget k grows from 3 to 4, because C(5,4) = 5 < C(5,3) = 10 — so the
sample-size bounds are not non-decreasing in k over all valid parameter
combinations. -/
theorem C4_sample_size_monotonicity_counterexample :
    RThreshold 5 (1 / 2) 1 4 1 < RThreshold 5 (1 / 2) 1 3 1 := by
  have h54 : Nat.choose 5 4 = 5 := rfl
  have h53 : Nat.choose 5 3 = 10 := rfl
  rw [RThreshold, RThreshold, LogNChooseK, LogNChooseK, h54, h53]
  have hlog : Real.log 5 < Real.log 10 := Real.log_lt_log (by norm_num) (by norm_num)
  have h5 : (0 : ℝ) ≤ Real.log 5 := Real.log_nonneg (by norm_num)
  have h2 : (0 : ℝ) ≤ Real.log 2 := Real.log_nonneg (by norm_num)
  rw [div_lt_div_iff_of_pos_right (by norm_num)]
  push_cast
  nlinarith [hlog]

/-- Witness for the amended C4 at concrete valid parameters. -/
theorem C4_sample_size_monotonicity_amended_witness :
    DefaultRounds 5 7 (3 / 4) ≤ DefaultRounds 5 7 (1 / 2) ∧
    RThreshold 5 (3 / 4) 1 2 1 ≤ RThreshold 5 (1 / 2) 1 2 1 ∧
    LambdaStar (3 / 4) 2 1 5 ≤ LambdaStar (1 / 2) 2 1 5 ∧
    DefaultRounds 4 7 (1 / 2) ≤ DefaultRounds 6 7 (1 / 2) ∧
    RThreshold 4 (1 / 2) 1 2 1 ≤ RThreshold 6 (1 / 2) 1 2 1 ∧
    LambdaStar (1 / 2) 2 1 4 ≤ LambdaStar (1 / 2) 2 1 6 ∧
    RThreshold 5 (1 / 2) 1 1 1 ≤ RThreshold 5 (1 / 2) 1 2 1 ∧
    LambdaStar (1 / 2) 1 1 5 ≤ LambdaStar (1 / 2) 2 1 5 :=
  C4_sample_size_monotonicity_amended 5 4 6 7 2 1 2 (1 / 2) (3 / 4) 1 1
    (by norm_num) (by norm_num) (by norm_num) (by norm_num) (by norm_num)
    (by norm_num) (by norm_num) (by norm_num) (by norm_num) (by norm_num) (by norm_num)

/-! ## PRM_IMM time-indexed driver and its reduction to IMM -/

/-- Modelled from the spec: `PRM_IMM::_AddRRSimulation1` (body not in the
header) — generate labelled RR samples into `tableWithTime`, each carrying a
time bucket label in `0 .. max_time - 1` drawn from the same random state as
the root (so that with max_time = 1 every label is 0 and the root stream
coincides with the plain sampler's). -/
def prmAddRRSimulation (n steps : Nat) (edgesOf : Nat → List (Nat × Nat)) (T : Nat) :
    Nat → Nat → List (RRVec × Nat) × List Nat × Nat
  | 0, rng => ([], [], rng)
  | k + 1, rng =>
    let root := rng % n
    let sample := rrSample steps (edgesOf rng) root
    let rest := prmAddRRSimulation n steps edgesOf T k (lcg rng)
    ((sample, rng % T) :: rest.1, root :: rest.2.1, rest.2.2)

/-- Modelled from the spec: the marginal degree over (node, time) keys used
by `PRM_IMM::_RunGreedy1`, with the key encoded as `v * T + t` (decoded by
`idx / T`, `idx % T`): the number of uncovered labelled samples with label
`idx % T` containing node `idx / T`. -/
def marginalDegWithTime (T : Nat) (tableT : List (RRVec × Nat)) (covered : List Nat)
    (idx : Nat) : Nat :=
  ((hitIndicesWithTime (idx / T) (idx % T) tableT).filter
    (fun i => !(covered.contains i))).length

/-- Modelled from the spec: `PRM_IMM::_RunGreedy1` — greedy maximum coverage
over (node, time) keys: repeatedly pick the key of largest marginal degree
(ties by lowest encoded key), cover its samples, and record the cumulative
covered counts.  Returns the (node, time) seed pairs and the counts. -/
def runGreedy1 (n T : Nat) (tableT : List (RRVec × Nat)) :
    Nat → List Nat → List (Nat × Nat) × List Nat
  | 0, _ => ([], [])
  | fuel + 1, covered =>
    let b := bestUpTo (marginalDegWithTime T tableT covered) (n * T)
    if marginalDegWithTime T tableT covered b = 0 then ([], [])
    else
      let covered2 := covered ++
        (hitIndicesWithTime (b / T) (b % T) tableT).filter (fun i => !(covered.contains i))
      let rest := runGreedy1 n T tableT fuel covered2
      ((b / T, b % T) :: rest.1, covered2.length :: rest.2)

/-- Modelled from the spec: `IMM::Build`'s sampling-and-selection core at a
given sample count θ — sample, rebuild, select k seeds, and report the
cumulative estimated spreads. -/
def immBuild (n steps : Nat) (edgesOf : Nat → List (Nat × Nat)) (rng k theta : Nat) :
    List Nat × List ℚ :=
  let r := addRRSimulation n steps edgesOf theta rng
  ((runGreedy n r.1 k []).1, runGreedyInfl n r.1 k)

/-- Modelled from the spec: `PRM_IMM::Build`'s sampling-and-selection core —
θ labelled samples per time bucket over `T` buckets, then time-indexed
greedy selection of k (node, time) seeds with their cumulative estimated
spreads. -/
def prmBuild (n steps : Nat) (edgesOf : Nat → List (Nat × Nat)) (rng k T theta : Nat) :
    List (Nat × Nat) × List ℚ :=
  let r := prmAddRRSimulation n steps edgesOf T (theta * T) rng
  let g := runGreedy1 n T r.1 k []
  (g.1, g.2.map (fun c : Nat => ((c : ℚ) * (n : ℚ)) / (r.1.length : ℚ)))

theorem idxWhere_map (g : α → β) (p : β → Bool) (l : List α) (i : Nat) :
    idxWhere p (l.map g) i = idxWhere (fun a => p (g a)) l i := by
  induction l generalizing i with
  | nil => rfl
  | cons a rest ih => simp only [List.map_cons, idxWhere, ih]

theorem idxWhere_congr (p q : α → Bool) (h : ∀ a, p a = q a) (l : List α) (i : Nat) :
    idxWhere p l i = idxWhere q l i := by
  induction l generalizing i with
  | nil => rfl
  | cons a rest ih => simp only [idxWhere, h a, ih]

theorem hitIndicesWithTime_one (v : Nat) (table : List RRVec) :
    hitIndicesWithTime v 0 (table.map (fun s => (s, 0))) = hitIndices v table := by
  rw [hitIndicesWithTime, hitIndices, idxWhere_map]
  exact idxWhere_congr _ _ (fun s => by simp) table 0

theorem marginalDegWithTime_one (table : List RRVec) (covered : List Nat) (idx : Nat) :
    marginalDegWithTime 1 (table.map (fun s => (s, 0))) covered idx =
      marginalDeg table covered idx := by
  rw [marginalDegWithTime, marginalDeg, Nat.div_one, Nat.mod_one, hitIndicesWithTime_one]

theorem prmAddRRSimulation_one (n steps : Nat) (edgesOf : Nat → List (Nat × Nat)) (k : Nat) :
    ∀ rng, prmAddRRSimulation n steps edgesOf 1 k rng =
      ((addRRSimulation n steps edgesOf k rng).1.map (fun s => (s, 0)),
        (addRRSimulation n steps edgesOf k rng).2.1,
        (addRRSimulation n steps edgesOf k rng).2.2) := by
  induction k with
  | zero => intro rng; rfl
  | succ m ih =>
    intro rng
    simp only [prmAddRRSimulation, addRRSimulation, ih (lcg rng), List.map_cons, Nat.mod_one]

theorem runGreedy1_one (n : Nat) (table : List RRVec) (fuel : Nat) :
    ∀ covered, runGreedy1 n 1 (table.map (fun s => (s, 0))) fuel covered =
      ((runGreedy n table fuel covered).1.map (fun v => (v, 0)),
        (runGreedy n table fuel covered).2) := by
  induction fuel with
  | zero => intro covered; rfl
  | succ m ih =>
    intro covered
    have hf : marginalDegWithTime 1 (table.map (fun s => (s, 0))) covered =
        marginalDeg table covered :=
      funext (fun idx => marginalDegWithTime_one table covered idx)
    simp only [runGreedy1, runGreedy, Nat.mul_one, hf, Nat.div_one, Nat.mod_one,
      hitIndicesWithTime_one, ih]
    by_cases h : marginalDeg table covered (bestUpTo (marginalDeg table covered) n) = 0
    · simp [h]
    · simp [h]

/-- C9: PRM_IMM's Build with max_time = 1 reduces exactly to IMM's Build
under a common fixed random seed: the selected seed list (forgetting the
trivial time component) and the cumulative estimated spreads coincide. -/
theorem C9_prm_reduces_to_imm (n steps : Nat) (edgesOf : Nat → List (Nat × Nat))
    (rng k theta : Nat) :
    (prmBuild n steps edgesOf rng k 1 theta).1.map Prod.fst =
      (immBuild n steps edgesOf rng k theta).1 ∧
    (prmBuild n steps edgesOf rng k 1 theta).2 = (immBuild n steps edgesOf rng k theta).2 := by
  rw [prmBuild, immBuild]
  simp only [Nat.mul_one, prmAddRRSimulation_one, runGreedy1_one, runGreedyInfl,
    List.map_map, List.length_map]
  refine ⟨?_, trivial⟩
  have hcomp : (Prod.fst ∘ fun v : Nat => (v, (0 : Nat))) = id := rfl
  rw [hcomp, List.map_id]

end PRM
